import Mathlib

/-!
Verification development for the object-ingestion and symbol-resolution core
of a Mach-O linker (object-file.cc). The definitions below are a shallow
embedding of the routines of that file: ObjectFile::parse_compact_unwind,
the two get_rank helpers, ObjectFile::resolve_regular_symbols,
ObjectFile::resolve_lazy_symbols and DylibFile::resolve_symbols.

Modelling conventions:
* machine integers become Nat, with an explicit mod 2 ^ 32 where the C++
  performs a u64-to-u32 conversion;
* the per-symbol mutex only serializes the compare-and-overwrite step, so the
  embedding is the sequential execution of those steps;
* a C++ Fatal(ctx) diagnostic becomes an explicit .fatal outcome carrying the
  message text that the stream inserters would have produced;
* an execution that dereferences an invalid pointer (out-of-range index or a
  null subsection pointer) has no defined C++ semantics and becomes the
  distinct .crash outcome;
* the field is_extern of Symbol and MachRel is rendered is_ext here.
-/

namespace MoldMacho

/-- Fields of the InputFile base class used by symbol resolution: the archive
member name (empty when the file does not come from an archive), the priority
assigned in input-discovery order, and the dylib flag. -/
structure InputFile where
  archive_name : String
  priority : Nat
  is_dylib : Bool
deriving DecidableEq, Repr

/-- Modelled from the spec: Subsection construction lives outside the given
source file. A subsection carries its input address and a back-reference to
the owning input section, rendered here as the owning section's index, which
gives distinct subsections of different sections distinct identities (the C++
compares subsection pointers). The byte length is not consulted by any
routine embedded here and is omitted. -/
structure Subsection where
  osec : Nat
  input_addr : Nat
deriving DecidableEq, Repr

/-- Modelled from the spec: an input section as used here is just its list of
subsections, stored in ascending input-address order. -/
structure InputSection where
  subsections : List Subsection
deriving DecidableEq, Repr

/-- Modelled from the spec: InputSection::find_subsection is outside the given
source file; the spec describes it as an address-ordered lookup resolving an
address to the subsection containing it. With subsections in ascending
address order this is the last subsection whose input address is at most the
given address, and no result when every subsection starts above it. -/
def InputSection.find_subsection (sec : InputSection) (addr : Nat) : Option Subsection :=
  sec.subsections.foldl (fun acc s => if s.input_addr ≤ addr then some s else acc) none

/-- The symbol-table entry types distinguished by resolve_regular_symbols.
Every type other than N_ABS and N_SECT falls through the switch without
writing, so one constructor stands for all of them. -/
inductive NType where
  | n_undf
  | n_abs
  | n_sect
deriving DecidableEq, Repr

/-- A raw symbol-table entry (MachSym): its type, value (u64), external flag
and 1-based section index. The string-table offset is not used after
interning and is omitted. -/
structure MachSym where
  type : NType
  value : Nat
  ext : Bool
  sect : Nat
deriving DecidableEq, Repr

/-- A shared Symbol record: exactly the fields mutated by resolution. The
interned name is the index of the record in the global table and the mutex is
rendered by the sequential execution of the locked steps, so neither appears
as a field. is_ext renders the C++ field is_extern. -/
structure Symbol where
  file : Option InputFile
  subsec : Option Subsection
  value : Nat
  is_ext : Bool
  is_lazy : Bool
deriving DecidableEq, Repr

/-- An object file: the InputFile base plus its diagnostic name (mf->name),
its sections, its raw symbol-table entries and the parallel list of interned
symbols, rendered as indices into the global symbol table. -/
structure ObjectFile extends InputFile where
  name : String
  sections : List InputSection
  mach_syms : List MachSym
  syms : List Nat
deriving DecidableEq, Repr

/-- A dylib file: the InputFile base plus its diagnostic name and exported
symbols (indices into the global symbol table). -/
structure DylibFile extends InputFile where
  name : String
  syms : List Nat
deriving DecidableEq, Repr

/-- The three-argument overload of get_rank: the rank of a candidate
definition offered by file, from the lazy path (rank band 5), a dylib (band
3) or a regular object (band 1), tie-broken by file priority. The msym
argument is unused, as in the source. -/
def get_rank_file (file : InputFile) (_msym : MachSym) (is_lazy : Bool) : Nat :=
  if is_lazy then (5 <<< 24) + file.priority
  else if file.is_dylib then (3 <<< 24) + file.priority
  else (1 <<< 24) + file.priority

/-- The one-argument overload of get_rank: the rank of the incumbent
definition stored in a Symbol, band 7 when undefined, band 5 when the owning
file is an archive member, band 3 for a dylib and band 1 otherwise. -/
def get_rank_sym (sym : Symbol) : Nat :=
  match sym.file with
  | none => 7 <<< 24
  | some file =>
    if file.archive_name ≠ "" then (5 <<< 24) + file.priority
    else if file.is_dylib then (3 <<< 24) + file.priority
    else (1 <<< 24) + file.priority

/-- One locked iteration of the loop of ObjectFile::resolve_regular_symbols:
compare the candidate rank (computed with is_lazy = false) against the
incumbent rank and, when the candidate strictly outranks it, overwrite the
symbol according to the entry type. find_subsection receives the u64 value
converted to its u32 parameter, hence the mod 2 ^ 32. The C++ dereferences
the result of the N_SECT lookup unconditionally; the failed-lookup branch
(undefined behavior in C++, exercised by no claim) leaves the symbol
unchanged here, as does an out-of-range 1-based section index. -/
def resolve_one (obj : ObjectFile) (msym : MachSym) (sym : Symbol) : Symbol :=
  if get_rank_file obj.toInputFile msym false < get_rank_sym sym then
    match msym.type with
    | .n_abs =>
      { file := some obj.toInputFile, subsec := none, value := msym.value,
        is_ext := msym.ext, is_lazy := false }
    | .n_sect =>
      match (obj.sections[msym.sect - 1]?).bind
          (fun sec => sec.find_subsection (msym.value % 2 ^ 32)) with
      | some target =>
        { file := some obj.toInputFile, subsec := some target,
          value := msym.value - target.input_addr,
          is_ext := msym.ext, is_lazy := false }
      | none => sym
    | .n_undf => sym
  else sym

/-- The loop of ObjectFile::resolve_regular_symbols over an explicit list of
(interned index, raw entry) pairs: apply the locked compare-and-overwrite
step to the shared record of each pair in order. -/
def foldEntries (obj : ObjectFile) (ps : List (Nat × MachSym)) (tab : List Symbol) :
    List Symbol :=
  ps.foldl
    (fun tab p =>
      match tab[p.1]? with
      | some sym => tab.set p.1 (resolve_one obj p.2 sym)
      | none => tab)
    tab

/-- ObjectFile::resolve_regular_symbols: walk the interned symbols and the
parallel raw entries (parse makes both lists the same length; zip renders the
index-parallel walk) and apply the locked compare-and-overwrite step to the
shared record of each. -/
def resolve_regular_symbols (obj : ObjectFile) (tab : List Symbol) : List Symbol :=
  foldEntries obj (obj.syms.zip obj.mach_syms) tab

/-- ObjectFile::resolve_lazy_symbols: the source forwards directly to
resolve_regular_symbols, so the lazy path ranks its candidates with
is_lazy = false, i.e. in the regular-object band. -/
def resolve_lazy_symbols (obj : ObjectFile) (tab : List Symbol) : List Symbol :=
  resolve_regular_symbols obj tab

/-- One locked iteration of DylibFile::resolve_symbols: skip when the symbol
has an owner of strictly smaller priority, otherwise install the dylib as
owner and mark the symbol external. -/
def dylib_resolve_one (d : DylibFile) (sym : Symbol) : Symbol :=
  match sym.file with
  | some f =>
    if f.priority < d.priority then sym
    else { sym with file := some d.toInputFile, is_ext := true }
  | none => { sym with file := some d.toInputFile, is_ext := true }

/-- DylibFile::resolve_symbols: apply the locked step to each exported
symbol. -/
def DylibFile.resolve_symbols (d : DylibFile) (tab : List Symbol) : List Symbol :=
  d.syms.foldl
    (fun tab i =>
      match tab[i]? with
      | some sym => tab.set i (dylib_resolve_one d sym)
      | none => tab)
    tab

/-- Running the regular-resolution pass of every object file, in a fixed
processing order, over a shared symbol table. -/
def resolve_all (objs : List ObjectFile) (tab : List Symbol) : List Symbol :=
  objs.foldl (fun tab obj => resolve_regular_symbols obj tab) tab

/-- The sequence of compare-and-overwrite steps a single Symbol record
experiences: each candidate is the offering object file paired with the raw
entry it offers. -/
def passC (cs : List (ObjectFile × MachSym)) (s : Symbol) : Symbol :=
  cs.foldl (fun s c => resolve_one c.1 c.2 s) s

/-- The candidates that one object file offers to the symbol-table slot j,
in entry order. -/
def fileCands (j : Nat) (obj : ObjectFile) : List (ObjectFile × MachSym) :=
  (obj.syms.zip obj.mach_syms).filterMap
    (fun p => if p.1 = j then some (obj, p.2) else none)

/-- The candidates that a list of object files offers to slot j, in
processing order. -/
def allCands (j : Nat) (objs : List ObjectFile) : List (ObjectFile × MachSym) :=
  objs.flatMap (fileCands j)

/-- Modelled from the spec: the CompactUnwindEntry struct is declared in a
header outside the given source file; the spec gives the record layout
(code_start: 8 bytes, code_len, encoding, personality: 8 bytes, lsda: 8
bytes) with code_len and encoding being the 4-byte fields of the platform
format. Hence a 32-byte record with code_start at offset 0, personality at
offset 16 and lsda at offset 24. -/
def cueSize : Nat := 32

/-- Modelled from the spec: byte offset of the code_start field inside a
CompactUnwindEntry. -/
def cueOffCodeStart : Nat := 0

/-- Modelled from the spec: byte offset of the personality field inside a
CompactUnwindEntry. -/
def cueOffPersonality : Nat := 16

/-- Modelled from the spec: byte offset of the lsda field inside a
CompactUnwindEntry. -/
def cueOffLsda : Nat := 24

/-- A raw compact-unwind record as stored in the __compact_unwind section. -/
structure CompactUnwindEntry where
  code_start : Nat
  code_len : Nat
  encoding : Nat
  personality : Nat
  lsda : Nat
deriving DecidableEq, Repr

/-- An UnwindRecord being built by parse_compact_unwind: constructed from
(code_len, encoding) with the remaining fields at their defaults until a
relocation fills them in. The personality symbol is rendered as the interned
index drawn from the file's syms list. -/
structure UnwindRecord where
  code_len : Nat
  encoding : Nat
  subsec : Option Subsection := none
  offset : Nat := 0
  personality : Option Nat := none
  lsda : Option Subsection := none
  lsda_offset : Nat := 0
deriving DecidableEq, Repr

/-- A raw relocation entry (MachRel) of the __compact_unwind section: byte
offset within the section, target index (1-based section index or symbol
index), and the flag fields. is_ext renders the C++ field is_extern. -/
structure MachRel where
  offset : Nat
  idx : Nat
  is_pcrel : Bool
  p2size : Nat
  is_ext : Bool
  type : Nat
deriving DecidableEq, Repr

/-- Outcome of processing the relocations of the __compact_unwind section:
the updated records, a Fatal diagnostic (carrying the records built so far
and the message text), or undefined behavior from an invalid dereference
(an out-of-range sections or syms index, or the null lsda subsection
pointer). -/
inductive RelOutcome where
  | ok (records : List UnwindRecord)
  | fatal (records : List UnwindRecord) (msg : String)
  | crash (records : List UnwindRecord)
deriving DecidableEq, Repr

/-- The sorted records together with the per-subsection association produced
by the final loop of parse_compact_unwind: each loop iteration assigns
(subsec.unwind_offset, subsec.nunwind) := (run start, run length); the
assignments are listed in loop order, so a later entry for the same
subsection overwrites an earlier one. -/
structure CUResult where
  records : List UnwindRecord
  runs : List (Option Subsection × Nat × Nat)
deriving DecidableEq, Repr

/-- Outcome of parse_compact_unwind as a whole. -/
inductive CUOutcome where
  | ok (result : CUResult)
  | fatal (records : List UnwindRecord) (msg : String)
  | crash (records : List UnwindRecord)
deriving DecidableEq, Repr

/-- The text of the unsupported-relocation diagnostic, naming the input file
and the relocation index. -/
def unsupportedMsg (name : String) (i : Nat) : String :=
  name ++ ": __compact_unwind: unsupported relocation: " ++ toString i

/-- Writing through the dst reference of the relocation loop: update the
record at idx. The reference is always in range in C++ (the offset bound and
the size check guarantee it); an out-of-range index leaves the list
unchanged here. -/
def setRec (records : List UnwindRecord) (idx : Nat)
    (f : UnwindRecord → UnwindRecord) : List UnwindRecord :=
  match records[idx]? with
  | some dst => records.set idx (f dst)
  | none => records

/-- The body of the relocation loop of parse_compact_unwind for the i-th
relocation r. The section data is supplied as the decoded list of 32-byte
records (entries); a record index beyond the supplied entries reads
unmapped bytes in C++ and yields the all-zero entry here (no claim exercises
it, since the offset bound and the size check keep well-formed inputs in
range). A zero or out-of-range target index makes the C++ read a wild
pointer, which is the crash outcome. In the lsda case the C++ stores the
possibly-null lookup result and dereferences it without the check the
code_start case performs, so a failed lookup is a crash, after the null
store. -/
def processRel (obj : ObjectFile) (size : Nat) (entries : List CompactUnwindEntry)
    (i : Nat) (r : MachRel) (records : List UnwindRecord) : RelOutcome :=
  if r.offset ≥ size then
    .fatal records (obj.name ++ ": relocation offset too large: " ++ toString i)
  else
    let idx := r.offset / cueSize
    let e := entries.getD idx ⟨0, 0, 0, 0, 0⟩
    if r.offset % cueSize = cueOffCodeStart then
      if r.is_pcrel || r.p2size != 3 || r.is_ext || r.type != 0 then
        .fatal records (unsupportedMsg obj.name i)
      else if r.idx = 0 then .crash records
      else
        match obj.sections[r.idx - 1]? with
        | none => .crash records
        | some sec =>
          match sec.find_subsection (e.code_start % 2 ^ 32) with
          | none => .fatal records (unsupportedMsg obj.name i)
          | some target =>
            .ok (setRec records idx
              (fun dst =>
                { dst with subsec := some target,
                           offset := (e.code_start - target.input_addr) % 2 ^ 32 }))
    else if r.offset % cueSize = cueOffPersonality then
      if r.is_pcrel || r.p2size != 3 || !r.is_ext || r.type != 0 then
        .fatal records (unsupportedMsg obj.name i)
      else
        match obj.syms[r.idx]? with
        | none => .crash records
        | some s => .ok (setRec records idx (fun dst => { dst with personality := some s }))
    else if r.offset % cueSize = cueOffLsda then
      if r.is_pcrel || r.p2size != 3 || r.is_ext || r.type != 0 then
        .fatal records (unsupportedMsg obj.name i)
      else
        let addr := e.lsda % 2 ^ 32
        if r.idx = 0 then .crash records
        else
          match obj.sections[r.idx - 1]? with
          | none => .crash records
          | some sec =>
            match sec.find_subsection addr with
            | none => .crash (setRec records idx (fun dst => { dst with lsda := none }))
            | some t =>
              .ok (setRec records idx
                (fun dst => { dst with lsda := some t, lsda_offset := addr - t.input_addr }))
    else
      .fatal records (unsupportedMsg obj.name i)

/-- The relocation loop: process relocations in order, starting at index i,
stopping at the first Fatal or crash. -/
def processRels (obj : ObjectFile) (size : Nat) (entries : List CompactUnwindEntry)
    (i : Nat) (rels : List MachRel) (records : List UnwindRecord) : RelOutcome :=
  match rels with
  | [] => .ok records
  | r :: rest =>
    match processRel obj size entries i r records with
    | .ok records2 => processRels obj size entries (i + 1) rest records2
    | .fatal recs m => .fatal recs m
    | .crash recs => .crash recs

/-- The record-reading loop: one UnwindRecord per 32-byte slice of the
section, built from (code_len, encoding). -/
def initRecords (size : Nat) (entries : List CompactUnwindEntry) : List UnwindRecord :=
  (List.range (size / cueSize)).map
    (fun i =>
      let e := entries.getD i ⟨0, 0, 0, 0, 0⟩
      { code_len := e.code_len, encoding := e.encoding })

/-- The input address of the subsection of a record, as used by the sort
comparator. The comparator runs only after the missing-relocation check, so
the subsection is never none there; a none field is given address 0. -/
def keyAddr (a : UnwindRecord) : Nat := (a.subsec.getD ⟨0, 0⟩).input_addr

/-- Modelled from the spec: the sort helper invoked at the end of
parse_compact_unwind lives outside the given source file; the spec specifies
a stable sort by the key (subsection input address, offset within
subsection). This is the corresponding total preorder: the negation of the
strict lexicographic comparator of the source with its arguments swapped. -/
def unwindLe (a b : UnwindRecord) : Bool :=
  decide (keyAddr a < keyAddr b ∨ (keyAddr a = keyAddr b ∧ a.offset ≤ b.offset))

/-- Modelled from the spec: stable insertion of a record into an
already-sorted list, placing it before the first record it compares at most
equal to, so records with equal keys keep their original order. -/
def insertRec (a : UnwindRecord) : List UnwindRecord → List UnwindRecord
  | [] => [a]
  | b :: l => if unwindLe a b then a :: b :: l else b :: insertRec a l

/-- Modelled from the spec: the stable sort of the record list by unwindLe
(insertion sort, which is stable, hence extensionally the stable sort the
spec specifies). -/
def sortRecs : List UnwindRecord → List UnwindRecord
  | [] => []
  | a :: l => insertRec a (sortRecs l)

/-- The association loop of parse_compact_unwind over the subsection fields
of the sorted records, with structural fuel: take the leading run of records
sharing the current subsection, record the assignment (subsection, run
start, run length), and continue after the run. -/
def groupRunsF : Nat → List (Option Subsection) → Nat →
    List (Option Subsection × Nat × Nat)
  | 0, _, _ => []
  | _ + 1, [], _ => []
  | fuel + 1, s :: rest, i =>
    let n := (rest.takeWhile (fun t => decide (t = s))).length
    (s, i, n + 1) :: groupRunsF fuel (rest.drop n) (i + n + 1)

/-- The association loop, with the fuel instantiated to the list length
(enough for every run, since each step consumes at least one element). -/
def groupRuns (l : List (Option Subsection)) (i : Nat) :
    List (Option Subsection × Nat × Nat) :=
  groupRunsF l.length l i

/-- Whether a list of (start, length) pairs tiles the index range beginning
at i: each pair starts where the previous one ended. -/
def runsConsec : Nat → List (Nat × Nat) → Bool
  | _, [] => true
  | i, (s, n) :: t => (s == i) && runsConsec (i + n) t

/-- The sort-key address of a subsection field, as the comparator reads
it. -/
def addrO (o : Option Subsection) : Nat := (o.getD ⟨0, 0⟩).input_addr

/-- ObjectFile::parse_compact_unwind. The section header contributes its
byte size; the bytes at hdr.offset are supplied as the decoded record list
and the hdr.nreloc relocation entries at hdr.reloff as the relocation list.
Steps, in source order: the size-modulus check, the record-reading loop, the
relocation loop, the missing-relocation check (whose Fatal message omits the
input file: the source inserts no *this there), the stable sort, and the
association loop. -/
def parse_compact_unwind (obj : ObjectFile) (size : Nat)
    (entries : List CompactUnwindEntry) (rels : List MachRel) : CUOutcome :=
  if size % cueSize ≠ 0 then
    .fatal [] (obj.name ++ ": invalid __compact_unwind section size")
  else
    match processRels obj size entries 0 rels (initRecords size entries) with
    | .fatal recs m => .fatal recs m
    | .crash recs => .crash recs
    | .ok records1 =>
      match records1.findIdx? (fun u => u.subsec.isNone) with
      | some i =>
        .fatal records1 (": __compact_unwind: missing relocation at " ++ toString i)
      | none =>
        let sorted := sortRecs records1
        .ok { records := sorted, runs := groupRuns (sorted.map (fun u => u.subsec)) 0 }

/-! Concrete inputs used to evaluate the embedded routines. -/

/-- A regular object file, priority 2, defining one absolute symbol. -/
def exReg : ObjectFile :=
  { archive_name := "", priority := 2, is_dylib := false, name := "main.o",
    sections := [], mach_syms := [⟨.n_abs, 7, true, 0⟩], syms := [0] }

/-- The symbol-table entry of the archive-member file exArk. -/
def exArkMsym : MachSym := ⟨.n_abs, 9, true, 0⟩

/-- An archive-member object file, priority 1, defining the same symbol. -/
def exArk : ObjectFile :=
  { archive_name := "libx.a", priority := 1, is_dylib := false, name := "x.o",
    sections := [], mach_syms := [exArkMsym], syms := [0] }

/-- A symbol with no definition yet. -/
def undefSym : Symbol := ⟨none, none, 0, false, false⟩

/-- A dylib input of priority 0. -/
def dylibIF : InputFile := ⟨"", 0, true⟩

/-- A symbol currently owned by the dylib input dylibIF. -/
def dylibOwnedSym : Symbol := ⟨some dylibIF, none, 0, true, false⟩

/-- A dylib file of priority 5 exporting symbol 0. -/
def exDylib : DylibFile :=
  { archive_name := "", priority := 5, is_dylib := true, name := "libz.tbd", syms := [0] }

/-- An input of priority 2, discovered before exDylib. -/
def earlyIF : InputFile := ⟨"", 2, false⟩

/-- A symbol owned by the earlier-discovered input earlyIF. -/
def ownedEarly : Symbol := ⟨some earlyIF, some ⟨0, 4⟩, 3, true, false⟩

/-- A compact-unwind record with code_len 10 and encoding 11. -/
def cuE : CompactUnwindEntry := ⟨0, 10, 11, 0, 0⟩

/-- A relocation with the shape the code_start and lsda cases accept:
non-pcrel, 8-byte, section-relative, type 0. -/
def goodRel (off : Nat) (ix : Nat) : MachRel :=
  { offset := off, idx := ix, is_pcrel := false, p2size := 3, is_ext := false, type := 0 }

/-- A subsection of section 0 at input address 0. -/
def sS : Subsection := ⟨0, 0⟩

/-- A subsection of section 1, also at input address 0. -/
def sT : Subsection := ⟨1, 0⟩

/-- An object file with two sections whose subsections share address 0. -/
def objCU : ObjectFile :=
  { archive_name := "", priority := 1, is_dylib := false, name := "cu.o",
    sections := [⟨[sS]⟩, ⟨[sT]⟩], mach_syms := [], syms := [] }

/-- The unwind record resolved to subsection sS in the objCU scenario. -/
def recS : UnwindRecord := ⟨10, 11, some sS, 0, none, none, 0⟩

/-- The unwind record resolved to subsection sT in the objCU scenario. -/
def recT : UnwindRecord := ⟨10, 11, some sT, 0, none, none, 0⟩

/-- An object file named a.o with no sections, symbols or relocations. -/
def obj8 : ObjectFile :=
  { archive_name := "", priority := 1, is_dylib := false, name := "a.o",
    sections := [], mach_syms := [], syms := [] }

/-- An object file whose only subsection starts at address 5, so an address
below 5 resolves to no subsection. -/
def obj9 : ObjectFile :=
  { archive_name := "", priority := 1, is_dylib := false, name := "o9.o",
    sections := [⟨[⟨0, 5⟩]⟩], mach_syms := [], syms := [] }

/-- An entry whose code_start and lsda are 0, below every subsection of
obj9. -/
def e9 : CompactUnwindEntry := ⟨0, 1, 2, 0, 0⟩

/-- An object file with one section holding subsections at addresses 0 and
16. -/
def objW : ObjectFile :=
  { archive_name := "", priority := 1, is_dylib := false, name := "w.o",
    sections := [⟨[⟨0, 0⟩, ⟨0, 16⟩]⟩], mach_syms := [], syms := [] }

/-- First record of the objW scenario: code range starting at address 16. -/
def eW0 : CompactUnwindEntry := ⟨16, 1, 2, 0, 0⟩

/-- Second record of the objW scenario: code range starting at address 0. -/
def eW1 : CompactUnwindEntry := ⟨0, 3, 4, 0, 0⟩

/-- The parse result of the objW scenario: the records swap under sorting
and each subsection owns one run. -/
def wOut : CUResult :=
  { records := [⟨3, 4, some ⟨0, 0⟩, 0, none, none, 0⟩,
                ⟨1, 2, some ⟨0, 16⟩, 0, none, none, 0⟩],
    runs := [(some ⟨0, 0⟩, 0, 1), (some ⟨0, 16⟩, 1, 1)] }

/-- A code_start-offset relocation that is position-relative, which the
structural checks reject. -/
def badRel : MachRel :=
  { offset := 0, idx := 1, is_pcrel := true, p2size := 3, is_ext := false, type := 0 }

/-- A relocation whose offset modulus (4) matches no field offset. -/
def offRel4 : MachRel :=
  { offset := 4, idx := 1, is_pcrel := false, p2size := 3, is_ext := false, type := 0 }

end MoldMacho

namespace MoldMacho

/-! Helper lemmas about the per-symbol resolution dynamics. -/

theorem passC_cons (c : ObjectFile × MachSym) (cs : List (ObjectFile × MachSym))
    (s : Symbol) : passC (c :: cs) s = passC cs (resolve_one c.1 c.2 s) := rfl

theorem passC_append (a b : List (ObjectFile × MachSym)) (s : Symbol) :
    passC (a ++ b) s = passC b (passC a s) :=
  List.foldl_append _ _ _ _

/-- The candidate rank of an object file never exceeds the incumbent rank of
a symbol the same file owns: the write of a winning candidate cannot lower
the slot below the candidate's own rank. -/
theorem rank_write_ge (obj : ObjectFile) (m : MachSym) (w : Symbol)
    (hw : w.file = some obj.toInputFile) :
    get_rank_file obj.toInputFile m false ≤ get_rank_sym w := by
  have e1 : (1 <<< 24 : Nat) = 16777216 := by decide
  have e3 : (3 <<< 24 : Nat) = 50331648 := by decide
  have e5 : (5 <<< 24 : Nat) = 83886080 := by decide
  simp only [get_rank_file, get_rank_sym, hw, if_false, Bool.false_eq_true, e1, e3, e5]
  split_ifs <;> omega

/-- Each candidate either never changes a symbol (an entry type the switch
ignores, or a failed subsection lookup) or writes one fixed record w
whenever it strictly outranks the incumbent, where the candidate rank is at
most the incumbent rank of w. -/
theorem resolve_one_cases (obj : ObjectFile) (m : MachSym) :
    (∀ s, resolve_one obj m s = s) ∨
    ∃ w, (∀ s, resolve_one obj m s =
        if get_rank_file obj.toInputFile m false < get_rank_sym s then w else s) ∧
      get_rank_file obj.toInputFile m false ≤ get_rank_sym w := by
  rcases hm : m.type with _ | _ | _
  · left
    intro s
    simp only [resolve_one, hm, ite_self]
  · right
    refine ⟨{ file := some obj.toInputFile, subsec := none, value := m.value,
              is_ext := m.ext, is_lazy := false }, ?_, rank_write_ge obj m _ rfl⟩
    intro s
    simp only [resolve_one, hm]
  · rcases hl : (obj.sections[m.sect - 1]?).bind
        (fun sec => sec.find_subsection (m.value % 2 ^ 32)) with _ | target
    · left
      intro s
      simp only [resolve_one, hm, hl, ite_self]
    · right
      refine ⟨{ file := some obj.toInputFile, subsec := some target,
                value := m.value - target.input_addr,
                is_ext := m.ext, is_lazy := false }, ?_, rank_write_ge obj m _ rfl⟩
      intro s
      simp only [resolve_one, hm, hl]

/-- Running the same candidate sequence from a start state of equal or
higher (weaker) rank either merges with the run from the stronger start, or
leaves the stronger start untouched. -/
theorem passC_mono : ∀ (cs : List (ObjectFile × MachSym)) (s t : Symbol),
    get_rank_sym s ≤ get_rank_sym t →
    passC cs t = passC cs s ∨ passC cs s = s := by
  intro cs
  induction cs with
  | nil =>
    intro s t h
    right
    rfl
  | cons c rest ih =>
    intro s t h
    rcases resolve_one_cases c.1 c.2 with hin | ⟨w, hw, hcw⟩
    · rw [passC_cons, passC_cons, hin s, hin t]
      exact ih s t h
    · by_cases h1 : get_rank_file c.1.toInputFile c.2 false < get_rank_sym t
      · by_cases h2 : get_rank_file c.1.toInputFile c.2 false < get_rank_sym s
        · left
          rw [passC_cons, passC_cons, hw s, hw t, if_pos h1, if_pos h2]
        · rcases ih s w (le_trans (not_lt.mp h2) hcw) with h3 | h3
          · left
            rw [passC_cons, passC_cons, hw s, hw t, if_pos h1, if_neg h2]
            exact h3
          · right
            rw [passC_cons, hw s, if_neg h2]
            exact h3
      · have h2 : ¬ get_rank_file c.1.toInputFile c.2 false < get_rank_sym s :=
          fun hc => h1 (lt_of_lt_of_le hc h)
        rw [passC_cons, passC_cons, hw s, hw t, if_neg h1, if_neg h2]
        exact ih s t h

/-- Running the same candidate sequence twice is the same as running it
once. -/
theorem passC_idem : ∀ (cs : List (ObjectFile × MachSym)) (s : Symbol),
    passC cs (passC cs s) = passC cs s := by
  intro cs
  induction cs with
  | nil =>
    intro s
    rfl
  | cons c rest ih =>
    intro s
    have e1 : passC (c :: rest) s = passC rest (resolve_one c.1 c.2 s) := passC_cons _ _ _
    rw [e1, passC_cons]
    rcases resolve_one_cases c.1 c.2 with hin | ⟨w, hw, hcw⟩
    · rw [hin _]
      exact ih _
    · by_cases h1 : get_rank_file c.1.toInputFile c.2 false <
          get_rank_sym (passC rest (resolve_one c.1 c.2 s))
      · rw [hw _, if_pos h1]
        by_cases h2 : get_rank_file c.1.toInputFile c.2 false < get_rank_sym s
        · rw [hw s, if_pos h2]
        · rw [hw s, if_neg h2] at h1 ⊢
          rcases passC_mono rest s w (le_trans (not_lt.mp h2) hcw) with h3 | h3
          · exact h3
          · exfalso
            rw [h3] at h1
            exact h2 h1
      · rw [hw _, if_neg h1]
        exact ih _

/-- The effect of one file's resolution pass on slot j of the table is the
per-symbol run of the candidates that file offers to j. -/
theorem foldEntries_get (obj : ObjectFile) :
    ∀ (ps : List (Nat × MachSym)) (tab : List Symbol) (j : Nat),
    (foldEntries obj ps tab)[j]? =
      (tab[j]?).map (passC (ps.filterMap
        (fun p => if p.1 = j then some (obj, p.2) else none))) := by
  intro ps
  induction ps with
  | nil =>
    intro tab j
    have e : foldEntries obj [] tab = tab := rfl
    rw [e, List.filterMap_nil]
    cases tab[j]? <;> rfl
  | cons p ps ih =>
    intro tab j
    rcases p with ⟨i, m⟩
    by_cases hij : i = j
    · subst hij
      cases hti : tab[i]? with
      | none =>
        simp only [foldEntries, List.foldl_cons, hti]
        have := ih tab i
        simp only [foldEntries] at this
        rw [this, hti]
        rfl
      | some s =>
        have hlen : i < tab.length := (List.getElem?_eq_some.mp hti).1
        simp only [foldEntries, List.foldl_cons, hti]
        have := ih (tab.set i (resolve_one obj m s)) i
        simp only [foldEntries] at this
        rw [this, List.getElem?_set_self hlen]
        simp [List.filterMap_cons, passC_cons]
    · cases hti : tab[i]? with
      | none =>
        simp only [foldEntries, List.foldl_cons, hti]
        have := ih tab j
        simp only [foldEntries] at this
        rw [this, List.filterMap_cons]
        simp only [hij, if_false]
      | some s =>
        simp only [foldEntries, List.foldl_cons, hti]
        have := ih (tab.set i (resolve_one obj m s)) j
        simp only [foldEntries] at this
        rw [this, List.getElem?_set_ne hij, List.filterMap_cons]
        simp only [hij, if_false]

theorem resolve_regular_get (obj : ObjectFile) (tab : List Symbol) (j : Nat) :
    (resolve_regular_symbols obj tab)[j]? =
      (tab[j]?).map (passC (fileCands j obj)) :=
  foldEntries_get obj (obj.syms.zip obj.mach_syms) tab j

/-- The effect of the whole resolution pass on slot j is the per-symbol run
of all candidates offered to j, in processing order. -/
theorem resolve_all_get : ∀ (objs : List ObjectFile) (tab : List Symbol) (j : Nat),
    (resolve_all objs tab)[j]? = (tab[j]?).map (passC (allCands j objs)) := by
  intro objs
  induction objs with
  | nil =>
    intro tab j
    have e : resolve_all [] tab = tab := rfl
    rw [e]
    cases tab[j]? <;> rfl
  | cons o os ih =>
    intro tab j
    have e1 : resolve_all (o :: os) tab = resolve_all os (resolve_regular_symbols o tab) := rfl
    rw [e1, ih, resolve_regular_get]
    have e2 : allCands j (o :: os) = fileCands j o ++ allCands j os := by
      simp [allCands]
    rw [e2]
    cases tab[j]? with
    | none => rfl
    | some s =>
      simp only [Option.map_some']
      rw [passC_append]

/-! Helper lemmas about the association loop of parse_compact_unwind. -/

theorem drop_length_takeWhile {α : Type} (p : α → Bool) :
    ∀ l : List α, l.drop (l.takeWhile p).length = l.dropWhile p := by
  intro l
  induction l with
  | nil => rfl
  | cons a t ih =>
    by_cases h : p a = true
    · rw [List.takeWhile_cons, if_pos h, List.dropWhile_cons, if_pos h]
      simp only [List.length_cons, List.drop_succ_cons]
      exact ih
    · rw [List.takeWhile_cons, if_neg h, List.dropWhile_cons, if_neg h]
      rfl

theorem head_dropWhile_false {α : Type} (p : α → Bool) :
    ∀ (l : List α) (x : α) (xs : List α), l.dropWhile p = x :: xs → p x = false := by
  intro l
  induction l with
  | nil =>
    intro x xs h
    simp [List.dropWhile_nil] at h
  | cons a t ih =>
    intro x xs h
    rw [List.dropWhile_cons] at h
    by_cases hp : p a = true
    · rw [if_pos hp] at h
      exact ih x xs h
    · rw [if_neg hp] at h
      cases h
      revert hp
      cases p a <;> simp

theorem groupRunsF_zero (l : List (Option Subsection)) (i : Nat) :
    groupRunsF 0 l i = [] := rfl

theorem groupRunsF_nil (fuel : Nat) (i : Nat) : groupRunsF (fuel + 1) [] i = [] := rfl

theorem groupRunsF_cons (fuel : Nat) (s : Option Subsection)
    (rest : List (Option Subsection)) (i : Nat) :
    groupRunsF (fuel + 1) (s :: rest) i =
      (s, i, (rest.takeWhile (fun t => decide (t = s))).length + 1) ::
        groupRunsF fuel (rest.drop (rest.takeWhile (fun t => decide (t = s))).length)
          (i + (rest.takeWhile (fun t => decide (t = s))).length + 1) := rfl

theorem groupRuns_fst_mem :
    ∀ (n : Nat) (l : List (Option Subsection)) (i : Nat), l.length ≤ n →
      ∀ p ∈ groupRunsF n l i, p.1 ∈ l := by
  intro n
  induction n with
  | zero =>
    intro l i h p hp
    rw [groupRunsF_zero] at hp
    exact absurd hp (by simp)
  | succ n ih =>
    intro l i h p hp
    match l with
    | [] =>
      rw [groupRunsF_nil] at hp
      exact absurd hp (by simp)
    | s :: rest =>
      rw [groupRunsF_cons] at hp
      rcases List.mem_cons.mp hp with h1 | h1
      · subst h1
        exact List.mem_cons_self _ _
      · have hlen : (rest.drop (rest.takeWhile (fun t => decide (t = s))).length).length ≤ n := by
          simp only [List.length_drop]
          simp only [List.length_cons] at h
          omega
        have := ih _ _ hlen p h1
        exact List.mem_cons_of_mem s ((List.drop_sublist _ _).subset this)

theorem groupRuns_flatten_aux :
    ∀ (n : Nat) (l : List (Option Subsection)) (i : Nat), l.length ≤ n →
      (groupRunsF n l i).flatMap (fun p => List.replicate p.2.2 p.1) = l := by
  intro n
  induction n with
  | zero =>
    intro l i h
    rw [List.eq_nil_of_length_eq_zero (Nat.le_zero.mp h), groupRunsF_zero]
    rfl
  | succ n ih =>
    intro l i h
    match l with
    | [] =>
      rw [groupRunsF_nil]
      rfl
    | s :: rest =>
      rw [groupRunsF_cons, List.flatMap_cons]
      have hlen : (rest.drop (rest.takeWhile (fun t => decide (t = s))).length).length ≤ n := by
        simp only [List.length_drop]
        simp only [List.length_cons] at h
        omega
      rw [ih _ _ hlen]
      rw [List.replicate_succ]
      have hrep : List.replicate (rest.takeWhile (fun t => decide (t = s))).length s =
          rest.takeWhile (fun t => decide (t = s)) := by
        symm
        rw [List.eq_replicate_iff]
        refine ⟨by simp, ?_⟩
        intro b hb
        have := List.mem_takeWhile_imp hb
        simpa using this
      rw [drop_length_takeWhile]
      simp only [List.cons_append, List.cons.injEq, true_and]
      rw [hrep]
      exact List.takeWhile_append_dropWhile _ _

theorem groupRuns_consec_aux :
    ∀ (n : Nat) (l : List (Option Subsection)) (i : Nat), l.length ≤ n →
      runsConsec i ((groupRunsF n l i).map (fun p => p.2)) = true := by
  intro n
  induction n with
  | zero =>
    intro l i h
    rw [groupRunsF_zero]
    rfl
  | succ n ih =>
    intro l i h
    match l with
    | [] =>
      rw [groupRunsF_nil]
      rfl
    | s :: rest =>
      rw [groupRunsF_cons, List.map_cons]
      have hlen : (rest.drop (rest.takeWhile (fun t => decide (t = s))).length).length ≤ n := by
        simp only [List.length_drop]
        simp only [List.length_cons] at h
        omega
      simp only [runsConsec, beq_self_eq_true, Bool.true_and]
      exact ih _ (i + (rest.takeWhile (fun t => decide (t = s))).length + 1) hlen

theorem groupRuns_pos_aux :
    ∀ (n : Nat) (l : List (Option Subsection)) (i : Nat), l.length ≤ n →
      ∀ p ∈ groupRunsF n l i, 0 < p.2.2 := by
  intro n
  induction n with
  | zero =>
    intro l i h p hp
    rw [groupRunsF_zero] at hp
    exact absurd hp (by simp)
  | succ n ih =>
    intro l i h p hp
    match l with
    | [] =>
      rw [groupRunsF_nil] at hp
      exact absurd hp (by simp)
    | s :: rest =>
      rw [groupRunsF_cons] at hp
      rcases List.mem_cons.mp hp with h1 | h1
      · subst h1
        exact Nat.succ_pos _
      · have hlen : (rest.drop (rest.takeWhile (fun t => decide (t = s))).length).length ≤ n := by
          simp only [List.length_drop]
          simp only [List.length_cons] at h
          omega
        exact ih _ _ hlen p h1

theorem groupRuns_fst_distinct_aux :
    ∀ (n : Nat) (l : List (Option Subsection)) (i : Nat), l.length ≤ n →
      l.Pairwise (fun a b => addrO a ≤ addrO b) →
      l.Pairwise (fun a b => a ≠ b → addrO a ≠ addrO b) →
      (groupRunsF n l i).Pairwise (fun p q => p.1 ≠ q.1) := by
  intro n
  induction n with
  | zero =>
    intro l i h _ _
    rw [groupRunsF_zero]
    exact List.Pairwise.nil
  | succ n ih =>
    intro l i h hle hne
    match l with
    | [] =>
      rw [groupRunsF_nil]
      exact List.Pairwise.nil
    | s :: rest =>
      rw [groupRunsF_cons]
      have hlen : (rest.drop (rest.takeWhile (fun t => decide (t = s))).length).length ≤ n := by
        simp only [List.length_drop]
        simp only [List.length_cons] at h
        omega
      have hsubtail : (rest.drop (rest.takeWhile (fun t => decide (t = s))).length).Sublist
          (s :: rest) :=
        ((List.drop_sublist _ _).trans (List.sublist_cons_self s rest))
      rw [List.pairwise_cons]
      constructor
      · intro q hq
        show s ≠ q.1
        have hq1 : q.1 ∈ rest.drop (rest.takeWhile (fun t => decide (t = s))).length :=
          groupRuns_fst_mem n _ _ hlen q hq
        rw [drop_length_takeWhile] at hq1
        have hs_le : ∀ b ∈ rest, addrO s ≤ addrO b := (List.pairwise_cons.mp hle).1
        have hs_ne : ∀ b ∈ rest, s ≠ b → addrO s ≠ addrO b := (List.pairwise_cons.mp hne).1
        rcases hdw : rest.dropWhile (fun t => decide (t = s)) with _ | ⟨h0, tl⟩
        · rw [hdw] at hq1
          exact absurd hq1 (by simp)
        · rw [hdw] at hq1
          have hh : decide (h0 = s) = false := head_dropWhile_false _ rest h0 tl hdw
          have hns : h0 ≠ s := by simpa using hh
          have hmemh : h0 ∈ rest := by
            have : h0 ∈ rest.dropWhile (fun t => decide (t = s)) := by
              rw [hdw]
              exact List.mem_cons_self _ _
            exact (List.dropWhile_sublist _).subset this
          have hlt : addrO s < addrO h0 :=
            lt_of_le_of_ne (hs_le h0 hmemh) (hs_ne h0 hmemh (Ne.symm hns))
          rcases List.mem_cons.mp hq1 with h2 | h2
          · rw [h2]
            exact Ne.symm hns
          · have hrest_pair : rest.Pairwise (fun a b => addrO a ≤ addrO b) :=
              (List.pairwise_cons.mp hle).2
            have hdw_pair : (h0 :: tl).Pairwise (fun a b => addrO a ≤ addrO b) := by
              rw [← hdw]
              exact List.Pairwise.sublist (List.dropWhile_sublist _) hrest_pair
            have hle2 : addrO h0 ≤ addrO q.1 := (List.pairwise_cons.mp hdw_pair).1 q.1 h2
            intro heq
            rw [← heq] at hle2
            omega
      · exact ih _ _ hlen (List.Pairwise.sublist hsubtail hle)
          (List.Pairwise.sublist hsubtail hne)

theorem unwindLe_trans (a b c : UnwindRecord) (h1 : unwindLe a b = true)
    (h2 : unwindLe b c = true) : unwindLe a c = true := by
  simp only [unwindLe, decide_eq_true_eq] at h1 h2 ⊢
  omega

theorem unwindLe_total (a b : UnwindRecord) : (unwindLe a b || unwindLe b a) = true := by
  simp only [unwindLe, Bool.or_eq_true, decide_eq_true_eq]
  omega

theorem mem_insertRec (a x : UnwindRecord) :
    ∀ l : List UnwindRecord, x ∈ insertRec a l → x = a ∨ x ∈ l := by
  intro l
  induction l with
  | nil =>
    intro h
    simp [insertRec] at h
    exact Or.inl h
  | cons b l ih =>
    intro h
    rw [insertRec] at h
    by_cases hab : unwindLe a b = true
    · rw [if_pos hab] at h
      rcases List.mem_cons.mp h with h1 | h1
      · exact Or.inl h1
      · exact Or.inr h1
    · rw [if_neg hab] at h
      rcases List.mem_cons.mp h with h1 | h1
      · exact Or.inr (h1 ▸ List.mem_cons_self b l)
      · rcases ih h1 with h2 | h2
        · exact Or.inl h2
        · exact Or.inr (List.mem_cons_of_mem b h2)

theorem pairwise_insertRec (a : UnwindRecord) :
    ∀ l : List UnwindRecord, l.Pairwise (fun x y => unwindLe x y = true) →
      (insertRec a l).Pairwise (fun x y => unwindLe x y = true) := by
  intro l
  induction l with
  | nil =>
    intro _
    simp [insertRec]
  | cons b l ih =>
    intro h
    rw [insertRec]
    by_cases hab : unwindLe a b = true
    · rw [if_pos hab, List.pairwise_cons]
      refine ⟨?_, h⟩
      intro x hx
      rcases List.mem_cons.mp hx with h1 | h1
      · rw [h1]
        exact hab
      · exact unwindLe_trans a b x hab ((List.pairwise_cons.mp h).1 x h1)
    · rw [if_neg hab, List.pairwise_cons]
      refine ⟨?_, ih (List.pairwise_cons.mp h).2⟩
      intro x hx
      rcases mem_insertRec a x l hx with h1 | h1
      · rw [h1]
        have := unwindLe_total a b
        simp only [hab, Bool.false_or] at this
        exact this
      · exact (List.pairwise_cons.mp h).1 x h1

theorem sortRecs_sorted :
    ∀ l : List UnwindRecord, (sortRecs l).Pairwise (fun x y => unwindLe x y = true) := by
  intro l
  induction l with
  | nil => exact List.Pairwise.nil
  | cons a l ih => exact pairwise_insertRec a (sortRecs l) ih

theorem length_insertRec (a : UnwindRecord) :
    ∀ l : List UnwindRecord, (insertRec a l).length = l.length + 1 := by
  intro l
  induction l with
  | nil => rfl
  | cons b l ih =>
    rw [insertRec]
    by_cases hab : unwindLe a b = true
    · rw [if_pos hab]
      rfl
    · rw [if_neg hab]
      simp [ih]

theorem length_sortRecs : ∀ l : List UnwindRecord, (sortRecs l).length = l.length := by
  intro l
  induction l with
  | nil => rfl
  | cons a l ih =>
    rw [sortRecs, length_insertRec, ih]
    rfl

theorem setRec_length (records : List UnwindRecord) (idx : Nat)
    (f : UnwindRecord → UnwindRecord) : (setRec records idx f).length = records.length := by
  unfold setRec
  cases records[idx]? <;> simp

/-- A successful step of the relocation loop preserves the number of
records. -/
theorem processRel_ok_length (obj : ObjectFile) (size : Nat)
    (entries : List CompactUnwindEntry) (i : Nat) (r : MachRel)
    (records recs2 : List UnwindRecord)
    (h : processRel obj size entries i r records = .ok recs2) :
    recs2.length = records.length := by
  unfold processRel at h
  split at h
  · exact absurd h (by simp)
  · simp only [] at h
    repeat' split at h
    all_goals
      first
        | exact RelOutcome.noConfusion h
        | (simp only [RelOutcome.ok.injEq] at h
           subst h
           simp [setRec_length])

/-- A successful run of the relocation loop preserves the number of
records. -/
theorem processRels_ok_length (obj : ObjectFile) (size : Nat)
    (entries : List CompactUnwindEntry) :
    ∀ (rels : List MachRel) (i : Nat) (records recs2 : List UnwindRecord),
      processRels obj size entries i rels records = .ok recs2 →
      recs2.length = records.length := by
  intro rels
  induction rels with
  | nil =>
    intro i records recs2 h
    simp only [processRels, RelOutcome.ok.injEq] at h
    rw [← h]
  | cons r rest ih =>
    intro i records recs2 h
    rw [processRels] at h
    rcases hpr : processRel obj size entries i r records with recs3 | ⟨a, m⟩ | a
    · simp only [hpr] at h
      have h1 := ih (i + 1) recs3 recs2 h
      have h2 := processRel_ok_length obj size entries i r records recs3 hpr
      omega
    · simp only [hpr] at h
      exact RelOutcome.noConfusion h
    · simp only [hpr] at h
      exact RelOutcome.noConfusion h

theorem initRecords_length (size : Nat) (entries : List CompactUnwindEntry) :
    (initRecords size entries).length = size / cueSize := by
  simp [initRecords]

/-- Splitting the relocation loop at a list boundary: the second half runs
from the state and index the first half reaches. -/
theorem processRels_append (obj : ObjectFile) (size : Nat)
    (entries : List CompactUnwindEntry) :
    ∀ (pre rest : List MachRel) (i : Nat) (records : List UnwindRecord),
      processRels obj size entries i (pre ++ rest) records =
        match processRels obj size entries i pre records with
        | .ok recs => processRels obj size entries (i + pre.length) rest recs
        | .fatal recs m => .fatal recs m
        | .crash recs => .crash recs := by
  intro pre
  induction pre with
  | nil =>
    intro rest i records
    simp [processRels]
  | cons r pre ih =>
    intro rest i records
    rw [List.cons_append, processRels]
    rcases hpr : processRel obj size entries i r records with recs | ⟨a, m⟩ | a
    · dsimp only
      rw [ih]
      have e : i + 1 + pre.length = i + (r :: pre).length := by
        simp only [List.length_cons]
        omega
      rw [e]
      conv_rhs => rw [processRels]
      rw [hpr]
    · dsimp only
      conv_rhs => rw [processRels]
      rw [hpr]
    · dsimp only
      conv_rhs => rw [processRels]
      rw [hpr]

/-- Inverting a successful run of parse_compact_unwind: the size check
passed, the relocation loop succeeded, no record was left without a
subsection, and the output is the sorted record list with its association
runs. -/
theorem parse_ok_inv (obj : ObjectFile) (size : Nat) (entries : List CompactUnwindEntry)
    (rels : List MachRel) (out : CUResult)
    (h : parse_compact_unwind obj size entries rels = .ok out) :
    size % cueSize = 0 ∧
    ∃ records1,
      processRels obj size entries 0 rels (initRecords size entries) = .ok records1 ∧
      records1.findIdx? (fun u => u.subsec.isNone) = none ∧
      out.records = sortRecs records1 ∧
      out.runs = groupRuns ((sortRecs records1).map (fun u => u.subsec)) 0 := by
  by_cases hsz : size % cueSize = 0
  · unfold parse_compact_unwind at h
    rw [if_neg (by simp [hsz])] at h
    refine ⟨hsz, ?_⟩
    split at h
    · exact absurd h (by simp)
    · exact absurd h (by simp)
    · rename_i records1 hp
      split at h
      · exact absurd h (by simp)
      · rename_i hf
        simp only [CUOutcome.ok.injEq] at h
        refine ⟨records1, hp, hf, ?_, ?_⟩
        · rw [← h]
        · rw [← h]
  · unfold parse_compact_unwind at h
    rw [if_pos hsz] at h
    exact absurd h (by simp)

/-! Claim theorems. -/

/-- C1: the claim states that after all resolution passes a strongly-defined
candidate from a regular object file wins over lazy/archive candidates for
the same name regardless of processing order. The code violates this:
resolve_lazy_symbols forwards to resolve_regular_symbols, ranking the
archive candidate in the regular band (1 <<< 24) + priority, so the archive
member exArk (priority 1) overwrites the strong definition of the regular
object exReg (priority 2) when processed second, while exReg wins when
processed second; the final owner depends on arrival order, and in one order
the strong-object candidate loses. -/
theorem claim1_rank_ordering_code_bug :
    resolve_lazy_symbols exArk (resolve_regular_symbols exReg [undefSym]) ≠
      resolve_regular_symbols exReg (resolve_lazy_symbols exArk [undefSym]) ∧
    (resolve_lazy_symbols exArk (resolve_regular_symbols exReg [undefSym])).map
      (fun s => s.file) = [some exArk.toInputFile] := by
  decide

/-- C2: the claim states that the lazy path ranks each candidate at
(5 <<< 24) + file priority. The code ranks it at (1 <<< 24) + priority
(resolve_lazy_symbols calls resolve_regular_symbols, which passes
is_lazy = false to get_rank): the archive member exArk, resolved through the
lazy path, therefore overwrites a symbol owned by a dylib, which the claimed
band-5 rank (here (5 <<< 24) + 1, not below the dylib incumbent rank) would
never do. -/
theorem claim2_lazy_band_code_bug :
    (resolve_lazy_symbols exArk [dylibOwnedSym]).map (fun s => s.file) =
      [some exArk.toInputFile] ∧
    get_rank_file exArk.toInputFile exArkMsym false = (1 <<< 24) + 1 ∧
    ¬ ((5 <<< 24) + 1 < get_rank_sym dylibOwnedSym) := by
  decide

/-- C3: DylibFile::resolve_symbols installs the dylib as owner exactly when
the symbol has no owner or the current owner's priority is not strictly
smaller than the dylib's; an owner of strictly smaller priority is left
untouched, and an unowned symbol receives the dylib (with is_ext set). -/
theorem claim3_dylib_install_iff (d : DylibFile) (s : Symbol) :
    ((dylib_resolve_one d s).file = some d.toInputFile ↔
      (s.file = none ∨ ∃ f, s.file = some f ∧ d.priority ≤ f.priority)) ∧
    (∀ f, s.file = some f → f.priority < d.priority → dylib_resolve_one d s = s) ∧
    (s.file = none →
      dylib_resolve_one d s = { s with file := some d.toInputFile, is_ext := true }) := by
  rcases s with ⟨f0, sub, v, e, l⟩
  rcases f0 with _ | f
  · refine ⟨by simp [dylib_resolve_one], ?_, by intro _; simp [dylib_resolve_one]⟩
    intro f hf
    simp at hf
  · by_cases h : f.priority < d.priority
    · refine ⟨?_, ?_, ?_⟩
      · simp only [dylib_resolve_one, if_pos h]
        constructor
        · intro hfile
          simp only [Option.some.injEq] at hfile
          exact Or.inr ⟨f, rfl, by rw [hfile]⟩
        · rintro (hnone | ⟨g, hg, hge⟩)
          · simp at hnone
          · simp only [Option.some.injEq] at hg
            subst hg
            omega
      · rintro g hg hlt
        simp only [Option.some.injEq] at hg
        subst hg
        simp [dylib_resolve_one, if_pos hlt]
      · intro hnone
        simp at hnone
    · refine ⟨?_, ?_, ?_⟩
      · simp only [dylib_resolve_one, if_neg h]
        constructor
        · intro _
          exact Or.inr ⟨f, rfl, by omega⟩
        · intro _
          trivial
      · rintro g hg hlt
        simp only [Option.some.injEq] at hg
        subst hg
        omega
      · intro hnone
        simp at hnone

/-- Witness for C3: the dylib exDylib (priority 5) does not displace the
owner earlyIF (priority 2), and does claim the unowned symbol. -/
theorem claim3_witness :
    dylib_resolve_one exDylib ownedEarly = ownedEarly ∧
    (dylib_resolve_one exDylib undefSym).file = some exDylib.toInputFile := by
  constructor
  · exact (claim3_dylib_install_iff exDylib ownedEarly).2.1 earlyIF rfl (by decide)
  · exact (claim3_dylib_install_iff exDylib undefSym).1.mpr (Or.inl rfl)

/-- C4, counterexample: the claim asserts that on a re-run the
candidate-strictly-outranks-incumbent test fails for every entry whose
definition already won. For the archive member exArk, whose definition just
won symbol 0, the test succeeds again: the candidate rank is
(1 <<< 24) + 1 while the incumbent rank of its own definition is
(5 <<< 24) + 1 (band 5, archive_name nonempty). -/
theorem claim4_counterexample :
    (resolve_regular_symbols exArk [undefSym]).map (fun s => s.file) =
      [some exArk.toInputFile] ∧
    get_rank_file exArk.toInputFile exArkMsym false <
      get_rank_sym ((resolve_regular_symbols exArk [undefSym]).getD 0 undefSym) := by
  decide

/-- C4, amended: running the regular-resolution pass of every object file a
second time over the same inputs with the same priorities, from the
symbol-table state left by the first run, changes no Symbol's fields — the
table is unchanged as a whole — though not by the mechanism the claim
states: an archive-member entry whose definition already won passes the
strict rank test again (claim4_counterexample) and rewrites identical
values. -/
theorem claim4_resolution_idempotent (objs : List ObjectFile) (tab : List Symbol) :
    resolve_all objs (resolve_all objs tab) = resolve_all objs tab := by
  apply List.ext_getElem?
  intro j
  rw [resolve_all_get, resolve_all_get]
  cases tab[j]? with
  | none => rfl
  | some s =>
    simp only [Option.map_some']
    rw [passC_idem]

/-- C5, counterexample: when two distinct subsections (here sS and sT, from
different sections) share an input address, records resolved to them can
interleave after the stable sort: the parse below succeeds with record
subsections [sS, sT, sS], so the records sharing sS do not occupy one
contiguous run, and the association loop assigns sS the run (0, 1) and then
overwrites it with (2, 1) — after which the final (unwind_offset, nunwind)
values (2, 1) for sS and (1, 1) for sT fail to cover index 0, so the ranges
do not partition the index space. -/
theorem claim5_counterexample :
    parse_compact_unwind objCU 96 [cuE, cuE, cuE]
        [goodRel 0 1, goodRel 32 2, goodRel 64 1] =
      .ok { records := [recS, recT, recS],
            runs := [(some sS, 0, 1), (some sT, 1, 1), (some sS, 2, 1)] } ∧
    sS ≠ sT := by
  decide

/-- C5, amended: whenever parse_compact_unwind succeeds, the record list is
sorted by the key (subsection input address, offset); provided distinct
subsections referenced by the records have distinct input addresses, the
association runs reproduce the record list as contiguous replicated blocks
(records sharing a subsection occupy exactly one run), the run intervals
tile the index range [0, K) starting at 0, every run is nonempty, and no two
runs share a subsection, so each referenced subsection's final
(unwind_offset, nunwind) is its unique run. -/
theorem claim5_sorted_runs_partition (obj : ObjectFile) (size : Nat)
    (entries : List CompactUnwindEntry) (rels : List MachRel) (out : CUResult)
    (hok : parse_compact_unwind obj size entries rels = .ok out)
    (hinj : out.records.Pairwise
      (fun a b => a.subsec ≠ b.subsec → keyAddr a ≠ keyAddr b)) :
    out.records.Pairwise (fun a b => unwindLe a b = true) ∧
    out.records.map (fun u => u.subsec) =
      out.runs.flatMap (fun p => List.replicate p.2.2 p.1) ∧
    runsConsec 0 (out.runs.map (fun p => p.2)) = true ∧
    (∀ p ∈ out.runs, 0 < p.2.2) ∧
    out.runs.Pairwise (fun p q => p.1 ≠ q.1) := by
  obtain ⟨hsz, records1, hp, hf, hrec, hruns⟩ :=
    parse_ok_inv obj size entries rels out hok
  have hsorted : out.records.Pairwise (fun a b => unwindLe a b = true) := by
    rw [hrec]
    exact sortRecs_sorted records1
  refine ⟨hsorted, ?_, ?_, ?_, ?_⟩
  · rw [hruns, ← hrec]
    simp only [groupRuns]
    exact (groupRuns_flatten_aux (out.records.map (fun u => u.subsec)).length _ 0
      le_rfl).symm
  · rw [hruns, ← hrec]
    simp only [groupRuns]
    exact groupRuns_consec_aux (out.records.map (fun u => u.subsec)).length _ 0 le_rfl
  · intro p hp2
    rw [hruns, ← hrec] at hp2
    simp only [groupRuns] at hp2
    exact groupRuns_pos_aux (out.records.map (fun u => u.subsec)).length _ 0 le_rfl p hp2
  · rw [hruns, ← hrec]
    simp only [groupRuns]
    have hle : (out.records.map (fun u => u.subsec)).Pairwise
        (fun a b => addrO a ≤ addrO b) := by
      rw [List.pairwise_map]
      refine hsorted.imp ?_
      intro a b hab
      simp only [unwindLe, decide_eq_true_eq] at hab
      show addrO a.subsec ≤ addrO b.subsec
      have ea : addrO a.subsec = keyAddr a := rfl
      have eb : addrO b.subsec = keyAddr b := rfl
      rw [ea, eb]
      omega
    have hne : (out.records.map (fun u => u.subsec)).Pairwise
        (fun a b => a ≠ b → addrO a ≠ addrO b) := by
      rw [List.pairwise_map]
      refine hinj.imp ?_
      intro a b hab hne2
      exact hab hne2
    exact groupRuns_fst_distinct_aux (out.records.map (fun u => u.subsec)).length _ 0
      le_rfl hle hne

/-- Witness for C5 (amended): a concrete successful parse with two
subsections of distinct addresses; the conclusions are obtained by applying
the theorem, the hypotheses being discharged by evaluation. -/
theorem claim5_witness :
    runsConsec 0 (wOut.runs.map (fun p => p.2)) = true ∧
    wOut.records.map (fun u => u.subsec) =
      wOut.runs.flatMap (fun p => List.replicate p.2.2 p.1) :=
  have h := claim5_sorted_runs_partition objW 64 [eW0, eW1]
    [goodRel 0 1, goodRel 32 1] wOut (by decide) (by decide)
  ⟨h.2.2.1, h.2.1⟩

/-- C6: for a relocation whose offset modulus selects the code_start field
and which the loop reaches (the earlier relocations processed successfully
and its offset is within the section), parse_compact_unwind aborts with the
fatal unsupported-relocation diagnostic naming the relocation's index
whenever the relocation is position-relative, its operand-size power is not
3, it is an external reference, or it carries a nonzero type tag; a reached
relocation whose offset modulus matches none of the three field offsets is
likewise fatal with the same diagnostic. -/
theorem claim6_code_start_checks (obj : ObjectFile) (size : Nat)
    (entries : List CompactUnwindEntry) (pre post : List MachRel) (r : MachRel)
    (records : List UnwindRecord)
    (hsz : size % cueSize = 0)
    (hpre : processRels obj size entries 0 pre (initRecords size entries) = .ok records)
    (hoff : r.offset < size)
    (hbad : (r.offset % cueSize = cueOffCodeStart ∧
        (r.is_pcrel = true ∨ r.p2size ≠ 3 ∨ r.is_ext = true ∨ r.type ≠ 0)) ∨
      (r.offset % cueSize ≠ cueOffCodeStart ∧ r.offset % cueSize ≠ cueOffPersonality ∧
        r.offset % cueSize ≠ cueOffLsda)) :
    parse_compact_unwind obj size entries (pre ++ r :: post) =
      .fatal records (unsupportedMsg obj.name pre.length) := by
  have hrel : processRel obj size entries pre.length r records =
      .fatal records (unsupportedMsg obj.name pre.length) := by
    unfold processRel
    rw [if_neg (not_le.mpr hoff)]
    simp only []
    rcases hbad with ⟨hmod, hflags⟩ | ⟨h1, h2, h3⟩
    · rw [if_pos hmod]
      have hcond : (r.is_pcrel || r.p2size != 3 || r.is_ext || r.type != 0) = true := by
        rcases hflags with hf | hf | hf | hf <;> simp [hf]
      rw [if_pos hcond]
    · rw [if_neg h1, if_neg h2, if_neg h3]
  unfold parse_compact_unwind
  rw [if_neg (by simp [hsz]), processRels_append]
  simp only [hpre, Nat.zero_add, processRels, hrel]

/-- Witness for C6: a position-relative code_start relocation and a
relocation at offset modulus 4 are each rejected with the
unsupported-relocation diagnostic naming index 0. -/
theorem claim6_witness :
    parse_compact_unwind obj8 32 [cuE] [badRel] =
      .fatal (initRecords 32 [cuE]) (unsupportedMsg obj8.name 0) ∧
    parse_compact_unwind obj8 32 [cuE] [offRel4] =
      .fatal (initRecords 32 [cuE]) (unsupportedMsg obj8.name 0) := by
  constructor
  · exact claim6_code_start_checks obj8 32 [cuE] [] [] badRel (initRecords 32 [cuE])
      (by decide) rfl (by decide) (Or.inl ⟨rfl, Or.inl rfl⟩)
  · exact claim6_code_start_checks obj8 32 [cuE] [] [] offRel4 (initRecords 32 [cuE])
      (by decide) rfl (by decide) (Or.inr ⟨by decide, by decide, by decide⟩)

/-- C7: a section size that is not a multiple of the 32-byte record size is
fatal with the invalid-size diagnostic, and the fatal outcome carries the
empty record list — no unwind record has been appended at that point; when
the size is an exact multiple and parsing succeeds, exactly size / 32
records are produced. -/
theorem claim7_size_check (obj : ObjectFile) (size : Nat)
    (entries : List CompactUnwindEntry) (rels : List MachRel) :
    (size % cueSize ≠ 0 →
      parse_compact_unwind obj size entries rels =
        .fatal [] (obj.name ++ ": invalid __compact_unwind section size")) ∧
    (∀ out, parse_compact_unwind obj size entries rels = .ok out →
      out.records.length = size / cueSize) := by
  constructor
  · intro h
    unfold parse_compact_unwind
    rw [if_pos h]
  · intro out hok
    obtain ⟨hsz, records1, hp, hf, hrec, hruns⟩ :=
      parse_ok_inv obj size entries rels out hok
    rw [hrec, length_sortRecs]
    have h1 := processRels_ok_length obj size entries rels 0
      (initRecords size entries) records1 hp
    rw [h1, initRecords_length]

/-- Witness for C7: size 33 is rejected with no record produced, and the
successful parse of the two-record objW scenario yields 64 / 32 = 2
records. -/
theorem claim7_witness :
    parse_compact_unwind obj8 33 [cuE] [] =
      .fatal [] (obj8.name ++ ": invalid __compact_unwind section size") ∧
    wOut.records.length = 64 / cueSize := by
  constructor
  · exact (claim7_size_check obj8 33 [cuE] []).1 (by decide)
  · exact (claim7_size_check objW 64 [eW0, eW1] [goodRel 0 1, goodRel 32 1]).2 wOut
      (by decide)

/-- C8: the claim states that the fatal error for a record that never
received a code_start relocation identifies both the input file and the
record index. The code's Fatal at that check inserts no *this: for the file
named a.o, the message is ": __compact_unwind: missing relocation at 0",
which names the index but not the file — unlike, for contrast, the
invalid-size fatal of the same function, which does name a.o. -/
theorem claim8_missing_file_code_bug :
    parse_compact_unwind obj8 32 [cuE] [] =
      .fatal [{ code_len := 10, encoding := 11 }]
        ": __compact_unwind: missing relocation at 0" ∧
    obj8.name = "a.o" ∧
    ": __compact_unwind: missing relocation at 0" ≠
      "a.o" ++ ": __compact_unwind: missing relocation at 0" ∧
    parse_compact_unwind obj8 33 [cuE] [] =
      .fatal [] "a.o: invalid __compact_unwind section size" := by
  decide

/-- C9: the claim states that an lsda relocation whose subsection lookup
fails is handled like the code_start case, with a fatal unsupported
relocation error. The code stores the null lookup result and dereferences it
(dst.lsda->input_addr) without the check the code_start case performs: on
obj9, whose only subsection starts at address 5, the lsda value 0 resolves
to no subsection and the execution is a null dereference (crash), while the
identical situation on the code_start path is the fatal diagnostic. -/
theorem claim9_lsda_crash_code_bug :
    parse_compact_unwind obj9 32 [e9] [goodRel 24 1] =
      .crash [⟨1, 2, none, 0, none, none, 0⟩] ∧
    parse_compact_unwind obj9 32 [e9] [goodRel 0 1] =
      .fatal [⟨1, 2, none, 0, none, none, 0⟩] (unsupportedMsg "o9.o" 0) := by
  decide

/-- C10: when DylibFile::resolve_symbols processes a symbol it leaves
subsec, value and is_lazy untouched in every case, and either leaves the
symbol entirely unchanged or installs the dylib as owner with is_ext set to
true — so a definition inherited from an object file keeps its subsection
and value even after the dylib claims ownership. -/
theorem claim10_dylib_frame (d : DylibFile) (s : Symbol) :
    (dylib_resolve_one d s).subsec = s.subsec ∧
    (dylib_resolve_one d s).value = s.value ∧
    (dylib_resolve_one d s).is_lazy = s.is_lazy ∧
    (dylib_resolve_one d s = s ∨
      ((dylib_resolve_one d s).file = some d.toInputFile ∧
        (dylib_resolve_one d s).is_ext = true)) := by
  rcases hs : s.file with _ | f
  · simp [dylib_resolve_one, hs]
  · by_cases h : f.priority < d.priority
    · simp [dylib_resolve_one, hs, h]
    · simp [dylib_resolve_one, hs, h]

end MoldMacho
